import Mathlib

/-!
Verification of the easy-fs block cache and VFS layer.

Shallow embedding of `src/block_cache.rs` and `src/vfs.rs`:
machine buffers become lists of byte values (`Nat` below 256 is not
enforced, the code never computes on byte values), the block device
becomes an explicit trace of issued writes/reads, `Arc` strong counts
become an explicit `rc` field, and fatal assertion failures (Rust
`assert!` / fatal exhaustion) become `Option`/sum results.
-/

set_option autoImplicit false
set_option maxRecDepth 2048

namespace EasyFs

/-- Block size in bytes, `BLOCK_SZ` in `lib.rs`. -/
def BLOCK_SZ : Nat := 512

/-- Capacity of the cache manager pool, `BLOCK_CACHE_SIZE` in `block_cache.rs`. -/
def BLOCK_CACHE_SIZE : Nat := 16

/-- In-memory mirror of one on-disk block (`BlockCache` in `block_cache.rs`):
a 512-byte buffer, the mirrored block id, and the dirty flag `modified`. -/
structure BlockCache where
  cache : List Nat
  blockId : Nat
  modified : Bool
  deriving Repr, DecidableEq

/-- Embedding of `BlockCache::sync`: if `modified` is set, clear it and issue
one `write_block(block_id, cache)` to the device; otherwise do nothing.
The second component is the list of device writes issued by the call. -/
def BlockCache.sync (c : BlockCache) : BlockCache × List (Nat × List Nat) :=
  if c.modified then ({ c with modified := false }, [(c.blockId, c.cache)])
  else (c, [])

/-- Embedding of `BlockCache::get_ref::<T>(offset)` for a type of size
`tsize`: the code asserts `offset + type_size <= BLOCK_SZ` (fatal on
violation, embedded as `none`) and returns the typed view, which here is the
byte slice `[offset, offset + tsize)` of the buffer. -/
def BlockCache.getRef (tsize offset : Nat) (c : BlockCache) : Option (List Nat) :=
  if offset + tsize ≤ BLOCK_SZ then some ((c.cache.drop offset).take tsize)
  else none

/-- Embedding of `BlockCache::get_mut::<T>(offset)`: the bounds assertion
runs first; only after it passes does the code set `self.modified = true`
and return the view. The failing case therefore leaves the flag untouched:
it returns `(none, c)` with `c` unchanged. -/
def BlockCache.getMut (tsize offset : Nat) (c : BlockCache) :
    Option (List Nat) × BlockCache :=
  if offset + tsize ≤ BLOCK_SZ then
    (some ((c.cache.drop offset).take tsize), { c with modified := true })
  else (none, c)

/-- One entry of the `BlockCacheManager` pool: the pair
`(usize, Arc<Mutex<BlockCache>>)` of `block_cache.rs`. `rc` is the `Arc`
strong count of the shared handle (the manager itself holds one copy, so a
live entry has `rc ≥ 1`; `rc ≥ 2` means some external holder pins it).
`token` identifies the underlying `BlockCache` allocation: two handles over
the same buffer carry the same token. -/
structure CacheEntry where
  bid : Nat
  rc : Nat
  token : Nat
  deriving Repr, DecidableEq

/-- State of the `BlockCacheManager`: the `VecDeque` (front = oldest), a
fresh-allocation counter for tokens, and the trace of `read_block` calls the
manager has issued (block ids, oldest first). -/
structure CMState where
  queue : List CacheEntry
  nextToken : Nat
  reads : List Nat
  deriving Repr, DecidableEq

/-- Embedding of `BlockCacheManager::new`: empty queue, no reads issued. -/
def CMState.empty : CMState := ⟨[], 0, []⟩

/-- Effect of `Arc::clone(&pair.1)` on a cache hit: the strong count of the
first entry with the given block id goes up by one; nothing else changes. -/
def bumpRc (bid : Nat) : List CacheEntry → List CacheEntry
  | [] => []
  | e :: rest =>
    if e.bid == bid then { e with rc := e.rc + 1 } :: rest
    else e :: bumpRc bid rest

/-- Embedding of the eviction scan of `get_block_cache`: walk the queue from
front (oldest) to back for the first entry whose strong count is exactly 1
and remove it (`drain(idx..=idx)`); `none` when every entry is pinned. -/
def evictFirst : List CacheEntry → Option (List CacheEntry)
  | [] => none
  | e :: rest =>
    if e.rc == 1 then some rest
    else (evictFirst rest).map (e :: ·)

/-- Embedding of `BlockCacheManager::get_block_cache(block_id, device)`.
Hit: clone and return the stored handle. Miss with the queue at
`BLOCK_CACHE_SIZE`: run the eviction scan, and if it finds no victim the
call is the fatal `CacheExhausted` failure, embedded as `none`. Otherwise a
fresh `BlockCache` is built (one `read_block`, recorded in `reads`), pushed
at the back with strong count 2 (the queue copy plus the returned handle),
and its token returned. -/
def getBlockCache (bid : Nat) (s : CMState) : Option (Nat × CMState) :=
  match s.queue.find? (fun e => e.bid == bid) with
  | some e => some (e.token, { s with queue := bumpRc bid s.queue })
  | none =>
    match
      if s.queue.length == BLOCK_CACHE_SIZE then evictFirst s.queue
      else some s.queue with
    | none => none
    | some q =>
      some (s.nextToken,
        { queue := q ++ [⟨bid, 2, s.nextToken⟩],
          nextToken := s.nextToken + 1,
          reads := s.reads ++ [bid] })

/-- One observable event on the manager: a `get_block_cache` call, or
external holders cloning/dropping their handles, which rewrites the strong
count of every entry (keyed by token) while the manager keeps its own copy,
so counts stay at least 1. -/
inductive Step where
  | get (bid : Nat)
  | setRc (f : Nat → Nat)

/-- Apply one step to the manager state; `none` embeds the fatal
`CacheExhausted` outcome, which has no successor state. -/
def CMState.applyStep (s : CMState) : Step → Option CMState
  | .get bid => (getBlockCache bid s).map Prod.snd
  | .setRc f =>
    some { s with queue := s.queue.map fun e => { e with rc := max 1 (f e.token) } }

/-- Run a sequence of steps, stopping at a fatal failure. -/
def runSteps (s : CMState) : List Step → Option CMState
  | [] => some s
  | st :: rest =>
    match s.applyStep st with
    | none => none
    | some s' => runSteps s' rest

/-- C5's invariant: at most 16 entries, block ids pairwise distinct. -/
def Inv (s : CMState) : Prop :=
  s.queue.length ≤ BLOCK_CACHE_SIZE ∧ (s.queue.map CacheEntry.bid).Nodup

/-- Lift the invariant over a possibly-aborted state (a fatal failure has no
state to constrain). -/
def InvO : Option CMState → Prop
  | none => True
  | some s => Inv s

/-- Concrete fully-pinned 16-entry manager state used as a witness input. -/
def pinnedState : CMState :=
  ⟨(List.range 16).map (fun i => ⟨i, 2, i⟩), 16, []⟩

/-- Concrete 16-entry manager state whose entries 0–4 are pinned and whose
entry 5 is the first with strong count 1, used as a witness input. -/
def mixedState : CMState :=
  ⟨(List.range 16).map (fun i => ⟨i, if i < 5 then 2 else 1, i⟩), 16, []⟩

/-- Size in bytes of one directory entry, `DIRENT_SZ` of `layout.rs`. -/
def DIRENT_SZ : Nat := 32

/-- Modelled from the spec: `layout.rs` is absent from `src/`. Per the spec
a `DirEntry` is a fixed 32-byte record, a null-padded name plus a 4-byte
inode id; `name` stands for the decoded name string. -/
structure DirEntry where
  name : String
  inodeNumber : Nat
  deriving Repr, DecidableEq

/-- Modelled from the spec: `layout.rs` is absent from `src/`. A `DiskInode`
carries a type tag (directory or file, exposed as `is_dir()`) and a byte
size; a directory's content is an ordered, append-grown sequence of 32-byte
`DirEntry` records, held here in `entries`. -/
structure DiskInode where
  isDir : Bool
  size : Nat
  entries : List DirEntry
  deriving Repr, DecidableEq

/-- Modelled from the spec: `DiskInode::read_at` clamps to `size`, so a
32-byte read at offset `off` returns the full `DIRENT_SZ` bytes iff
`off + DIRENT_SZ ≤ size`; at a 32-aligned offset those bytes are the stored
record `entries[off / 32]`. `none` embeds a short read, on which the
callers' `assert_eq` is a fatal failure. -/
def readDirEntryAt (d : DiskInode) (off : Nat) : Option DirEntry :=
  if off % DIRENT_SZ = 0 ∧ off + DIRENT_SZ ≤ d.size then
    d.entries[off / DIRENT_SZ]?
  else none

/-- Modelled from the spec: `efs.rs` is absent from `src/`. The layout
manager fixes the inode area at format time; a `DiskInode` record is 128
bytes (type tag, size, 28 direct ids, 2 indirect ids), so 4 records pack
per 512-byte block. -/
structure EasyFileSystem where
  inodeAreaStart : Nat
  deriving Repr, DecidableEq

/-- Size in bytes of one on-disk `DiskInode` record. -/
def DISKINODE_SZ : Nat := 128

/-- Modelled from the spec: `get_disk_inode_pos(inode_id)` is the pure
arithmetic projection of a dense packing of fixed-size records. -/
def EasyFileSystem.get_disk_inode_pos (fs : EasyFileSystem) (inodeId : Nat) :
    Nat × Nat :=
  (fs.inodeAreaStart + inodeId / (BLOCK_SZ / DISKINODE_SZ),
   (inodeId % (BLOCK_SZ / DISKINODE_SZ)) * DISKINODE_SZ)

/-- The `Inode` handle of `vfs.rs`: a stateless locator `(block_id,
block_offset)` plus the shared filesystem reference. The block-device
reference carries no state of its own here. -/
structure Inode where
  blockId : Nat
  blockOffset : Nat
  fs : EasyFileSystem
  deriving Repr, DecidableEq

/-- Outcome of `Inode::find_inode_id`. The source either hits the fatal
directory-type assertion, hits the fatal short-read assertion, returns
`Some(inode_id)` from inside the loop — or exhausts the loop, at which
point the function body simply ends: the source provides no trailing `None`
(the value of that path is undefined; as Rust it does not even compile).
`fallsOff` marks that ill-formed control path. -/
inductive FindOutcome where
  | panicNotDir
  | panicShortRead
  | found (inodeId : Nat)
  | fallsOff
  deriving Repr, DecidableEq

/-- Scan loop of `find_inode_id` over `i` in `0..file_count`, with `fuel`
iterations remaining: read the entry at byte offset `DIRENT_SZ * i` (fatal
if short) and return its inode id when its name matches. -/
def findLoop (d : DiskInode) (name : String) : Nat → Nat → FindOutcome
  | _, 0 => .fallsOff
  | i, fuel + 1 =>
    match readDirEntryAt d (DIRENT_SZ * i) with
    | none => .panicShortRead
    | some ent =>
      if ent.name == name then .found ent.inodeNumber
      else findLoop d name (i + 1) fuel

/-- Embedding of `Inode::find_inode_id(name, disk_inode)`: the fatal
`assert!(disk_inode.is_dir())` runs first, then the scan over
`size / DIRENT_SZ` entries. -/
def find_inode_id (name : String) (d : DiskInode) : FindOutcome :=
  if d.isDir then findLoop d name 0 (d.size / DIRENT_SZ)
  else .panicNotDir

/-- Result of `Inode::find`: a fatal outcome propagated from
`find_inode_id`, the ill-formed fall-off path, or a normal result `ok`
(present or absent handle). -/
inductive VfsFind where
  | panicNotDir
  | panicShortRead
  | fallsOff
  | ok (res : Option Inode)
  deriving Repr, DecidableEq

/-- Embedding of `Inode::find(name)`: run `find_inode_id` on the located
`DiskInode` (passed explicitly — the source reads it through the block
cache under the filesystem lock) and map a found inode id through
`get_disk_inode_pos` into a freshly constructed handle. -/
def Inode.find (self : Inode) (name : String) (d : DiskInode) : VfsFind :=
  match find_inode_id name d with
  | .panicNotDir => .panicNotDir
  | .panicShortRead => .panicShortRead
  | .fallsOff => .fallsOff
  | .found inodeId =>
    let pos := self.fs.get_disk_inode_pos inodeId
    .ok (some ⟨pos.1, pos.2, self.fs⟩)

/-- Scan loop of `Inode::ls` over `i` in `0..file_count`: read the entry at
byte offset `i * DIRENT_SZ` (fatal if short, embedded as `none`) and push
its name. -/
def lsLoop (d : DiskInode) : Nat → Nat → Option (List String)
  | _, 0 => some []
  | i, fuel + 1 =>
    match readDirEntryAt d (i * DIRENT_SZ) with
    | none => none
    | some ent => (lsLoop d (i + 1) fuel).map (ent.name :: ·)

/-- Embedding of `Inode::ls()`: collect the names of all `size / DIRENT_SZ`
entries of the located `DiskInode`, in scan order. (The source line
`let _fs = self.fs;` is meant to take the filesystem lock; locking is not
represented here.) -/
def Inode.ls (_self : Inode) (d : DiskInode) : Option (List String) :=
  lsLoop d 0 (d.size / DIRENT_SZ)

/-- Embedding of `Inode::create` exactly as it stands in `vfs.rs`:
`pub fn create() {}` — a stub that takes no name, no type, no receiver and
performs no state change; embedded as the identity on the directory state
the contract says it must modify. -/
def Inode.create (d : DiskInode) : DiskInode := d

/-- Concrete directory with one entry named `a`, used as the failing input
for the exhausted-scan path of `find`. -/
def noMatchDir : DiskInode := ⟨true, 32, [⟨"a", 1⟩]⟩

/-- Concrete file (non-directory) inode, used as a witness input. -/
def fileNode : DiskInode := ⟨false, 0, []⟩

/-- Concrete empty root directory, used as a witness input. -/
def emptyRoot : DiskInode := ⟨true, 0, []⟩

/-- Concrete `Inode` handle, used as a witness input. -/
def someHandle : Inode := ⟨0, 0, ⟨1⟩⟩

end EasyFs

namespace EasyFs

/-- Clone on hit changes no block id and no token: the queue projected to
`(bid, token)` pairs is untouched by `bumpRc`. -/
theorem bumpRc_map_bid_token (bid : Nat) (l : List CacheEntry) :
    (bumpRc bid l).map (fun x => (x.bid, x.token)) =
      l.map (fun x => (x.bid, x.token)) := by
  induction l with
  | nil => rfl
  | cons e rest ih =>
    by_cases h : e.bid == bid <;> simp [bumpRc, h, ih]

/-- Block ids are untouched by `bumpRc`. -/
theorem bumpRc_map_bid (bid : Nat) (l : List CacheEntry) :
    (bumpRc bid l).map CacheEntry.bid = l.map CacheEntry.bid := by
  induction l with
  | nil => rfl
  | cons e rest ih =>
    by_cases h : e.bid == bid <;> simp [bumpRc, h, ih]

/-- Queue length is untouched by `bumpRc`. -/
theorem bumpRc_length (bid : Nat) (l : List CacheEntry) :
    (bumpRc bid l).length = l.length := by
  have h := congrArg List.length (bumpRc_map_bid bid l)
  simpa using h

/-- After the hit bump, the same block id is found again, with the same
token and a strong count one higher. -/
theorem find?_bumpRc (bid : Nat) (l : List CacheEntry) (e : CacheEntry)
    (h : l.find? (fun x => x.bid == bid) = some e) :
    (bumpRc bid l).find? (fun x => x.bid == bid) =
      some { e with rc := e.rc + 1 } := by
  induction l with
  | nil => simp [List.find?] at h
  | cons a rest ih =>
    by_cases ha : (a.bid == bid) = true
    · simp only [List.find?, ha, Option.some.injEq] at h
      subst h
      simp [bumpRc, ha, List.find?]
    · have ha' : (a.bid == bid) = false := by simpa using ha
      simp only [List.find?, ha'] at h
      simp [bumpRc, ha', List.find?, ih h]

/-- When every entry is pinned (strong count ≠ 1) the eviction scan fails. -/
theorem evictFirst_eq_none (l : List CacheEntry) (h : ∀ x ∈ l, x.rc ≠ 1) :
    evictFirst l = none := by
  induction l with
  | nil => rfl
  | cons e rest ih =>
    have he : (e.rc == 1) = false := by
      simpa using h e (by simp)
    simp only [evictFirst, he, if_false]
    rw [ih (fun x hx => h x (by simp [hx]))]
    rfl

/-- A successful eviction scan removes exactly the first entry with strong
count 1: the queue splits as `l₁ ++ e :: l₂` with every entry of `l₁`
pinned, `e.rc = 1`, and the scan returning `l₁ ++ l₂`. -/
theorem evictFirst_eq_some (l q : List CacheEntry) (h : evictFirst l = some q) :
    ∃ l₁ e l₂, l = l₁ ++ e :: l₂ ∧ (∀ x ∈ l₁, x.rc ≠ 1) ∧ e.rc = 1 ∧
      q = l₁ ++ l₂ := by
  induction l generalizing q with
  | nil => simp [evictFirst] at h
  | cons a rest ih =>
    by_cases ha : a.rc == 1
    · refine ⟨[], a, rest, by simp, by simp, by simpa using ha, ?_⟩
      simp only [evictFirst, ha, if_true, Option.some.injEq] at h
      simp [h.symm]
    · have ha' : (a.rc == 1) = false := by simpa using ha
      cases hrest : evictFirst rest with
      | none => simp [evictFirst, ha', hrest] at h
      | some q' =>
      simp [evictFirst, ha', hrest] at h
      subst h
      obtain ⟨l₁, e, l₂, hsplit, hpin, herc, hq⟩ := ih q' hrest
      exact ⟨a :: l₁, e, l₂, by simp [hsplit],
        by
          intro x hx
          rcases List.mem_cons.mp hx with rfl | hx'
          · simpa using ha
          · exact hpin x hx',
        herc, by simp [hq]⟩

/-- When some entry has strong count 1 the eviction scan succeeds. -/
theorem evictFirst_isSome (l : List CacheEntry) (h : ∃ x ∈ l, x.rc = 1) :
    (evictFirst l).isSome = true := by
  induction l with
  | nil => simp at h
  | cons e rest ih =>
    by_cases he : e.rc == 1
    · simp [evictFirst, he]
    · have : ∃ x ∈ rest, x.rc = 1 := by
        obtain ⟨x, hx, hx1⟩ := h
        rcases List.mem_cons.mp hx with rfl | hx'
        · exact absurd hx1 (by simpa using he)
        · exact ⟨x, hx', hx1⟩
      have he' : (e.rc == 1) = false := by simpa using he
      rcases Option.isSome_iff_exists.mp (ih this) with ⟨q, hq⟩
      simp [evictFirst, he', hq]

/-- C4: on a hit, `get_block_cache` returns the stored shared handle (same
token, hence the same underlying buffer), issues no device read, and leaves
the queue's block ids, tokens and their order unchanged; a second call for
the same block id again returns the very same token. -/
theorem get_hit_shared_handle (bid : Nat) (s : CMState) (e : CacheEntry)
    (h : s.queue.find? (fun x => x.bid == bid) = some e) :
    ∃ s', getBlockCache bid s = some (e.token, s') ∧
      s'.reads = s.reads ∧
      s'.queue.map (fun x => (x.bid, x.token)) =
        s.queue.map (fun x => (x.bid, x.token)) ∧
      ∃ s'', getBlockCache bid s' = some (e.token, s'') := by
  refine ⟨{ s with queue := bumpRc bid s.queue }, ?_, rfl,
    bumpRc_map_bid_token bid s.queue, ?_⟩
  · simp [getBlockCache, h]
  · have h2 := find?_bumpRc bid s.queue e h
    refine ⟨{ s with queue := bumpRc bid (bumpRc bid s.queue) }, ?_⟩
    simp [getBlockCache, h2]

/-- Witness for C4 on a concrete full pool, hitting resident block 3. -/
theorem get_hit_shared_handle_witness :
    pinnedState.queue.find? (fun x => x.bid == 3) = some ⟨3, 2, 3⟩ ∧
    (∃ s', getBlockCache 3 pinnedState = some (3, s') ∧
      s'.reads = pinnedState.reads ∧
      s'.queue.map (fun x => (x.bid, x.token)) =
        pinnedState.queue.map (fun x => (x.bid, x.token)) ∧
      ∃ s'', getBlockCache 3 s' = some (3, s'')) :=
  ⟨by decide, get_hit_shared_handle 3 pinnedState ⟨3, 2, 3⟩ (by decide)⟩

/-- C10: a call for a resident block id always succeeds — the capacity check
and the eviction scan sit on the miss branch only, so the `CacheExhausted`
failure is unreachable and no entry is evicted, even on a fully pinned
16-entry pool. -/
theorem get_hit_never_exhausts (bid : Nat) (s : CMState) (e : CacheEntry)
    (h : s.queue.find? (fun x => x.bid == bid) = some e) :
    (getBlockCache bid s).isSome = true ∧
    ∀ t s', getBlockCache bid s = some (t, s') →
      s'.queue.map (fun x => (x.bid, x.token)) =
        s.queue.map (fun x => (x.bid, x.token)) := by
  constructor
  · simp [getBlockCache, h]
  · intro t s' hres
    simp only [getBlockCache, h, Option.some.injEq, Prod.mk.injEq] at hres
    rw [← hres.2]
    exact bumpRc_map_bid_token bid s.queue

/-- Witness for C10: block 7 is resident in the fully pinned 16-entry pool
and the call succeeds. -/
theorem get_hit_never_exhausts_witness :
    pinnedState.queue.find? (fun x => x.bid == 7) = some ⟨7, 2, 7⟩ ∧
    (getBlockCache 7 pinnedState).isSome = true :=
  ⟨by decide,
   (get_hit_never_exhausts 7 pinnedState ⟨7, 2, 7⟩ (by decide)).1⟩

/-- C1: on a miss with the pool at 16 entries, if some entry has strong
count exactly 1, the first such entry in oldest-to-newest order is removed
and the new block is appended at the back; if every entry is pinned
(count ≥ 2), the call is the fatal `CacheExhausted` failure (`none`),
which carries no successor state, so no resident entry is removed or
overwritten. -/
theorem get_miss_at_capacity (bid : Nat) (s : CMState)
    (hmiss : s.queue.find? (fun x => x.bid == bid) = none)
    (hlen : s.queue.length = BLOCK_CACHE_SIZE) :
    ((∃ x ∈ s.queue, x.rc = 1) →
      ∃ l₁ e l₂, s.queue = l₁ ++ e :: l₂ ∧ (∀ x ∈ l₁, x.rc ≠ 1) ∧ e.rc = 1 ∧
        getBlockCache bid s = some (s.nextToken,
          ⟨(l₁ ++ l₂) ++ [⟨bid, 2, s.nextToken⟩], s.nextToken + 1,
            s.reads ++ [bid]⟩)) ∧
    ((∀ x ∈ s.queue, 2 ≤ x.rc) → getBlockCache bid s = none) := by
  have hlen' : (s.queue.length == BLOCK_CACHE_SIZE) = true := by
    simpa using hlen
  constructor
  · intro hex
    rcases Option.isSome_iff_exists.mp (evictFirst_isSome s.queue hex) with ⟨q, hq⟩
    obtain ⟨l₁, e, l₂, hsplit, hpin, herc, rfl⟩ := evictFirst_eq_some s.queue q hq
    exact ⟨l₁, e, l₂, hsplit, hpin, herc, by simp [getBlockCache, hmiss, hlen', hq]⟩
  · intro hpinned
    have hnone : evictFirst s.queue = none :=
      evictFirst_eq_none s.queue (fun x hx => by have := hpinned x hx; omega)
    simp [getBlockCache, hmiss, hlen', hnone]

/-- Witness for C1 on a concrete 16-entry pool whose first five entries are
pinned and whose sixth is the first with strong count 1. -/
theorem get_miss_at_capacity_witness :
    mixedState.queue.find? (fun x => x.bid == 99) = none ∧
    mixedState.queue.length = BLOCK_CACHE_SIZE ∧
    (∃ l₁ e l₂, mixedState.queue = l₁ ++ e :: l₂ ∧ (∀ x ∈ l₁, x.rc ≠ 1) ∧
      e.rc = 1 ∧
      getBlockCache 99 mixedState = some (mixedState.nextToken,
        ⟨(l₁ ++ l₂) ++ [⟨99, 2, mixedState.nextToken⟩],
          mixedState.nextToken + 1, mixedState.reads ++ [99]⟩)) :=
  ⟨by decide, by decide,
   (get_miss_at_capacity 99 mixedState (by decide) (by decide)).1 (by decide)⟩

/-- One step of the manager preserves the capacity and uniqueness bounds. -/
theorem applyStep_inv (s : CMState) (st : Step) (h : Inv s) :
    InvO (s.applyStep st) := by
  obtain ⟨hle, hnd⟩ := h
  cases st with
  | setRc f =>
    refine ⟨by simpa using hle, ?_⟩
    have : (s.queue.map fun e => ({ e with rc := max 1 (f e.token) } : CacheEntry)).map
        CacheEntry.bid = s.queue.map CacheEntry.bid := by
      simp [Function.comp]
    simpa [CMState.applyStep, this] using hnd
  | get bid =>
    simp only [CMState.applyStep]
    cases hfind : s.queue.find? (fun e => e.bid == bid) with
    | some e =>
      simp only [getBlockCache, hfind, Option.map_some', InvO, Inv]
      exact ⟨by simpa [bumpRc_length] using hle,
        by simpa [bumpRc_map_bid] using hnd⟩
    | none =>
      have hfresh : bid ∉ s.queue.map CacheEntry.bid := by
        intro hmem
        rcases List.mem_map.mp hmem with ⟨x, hx, hbx⟩
        have := List.find?_eq_none.mp hfind x hx
        simp [hbx] at this
      by_cases hcap : s.queue.length = BLOCK_CACHE_SIZE
      · have hcap' : (s.queue.length == BLOCK_CACHE_SIZE) = true := by
          simpa using hcap
        cases hev : evictFirst s.queue with
        | none => simp [getBlockCache, hfind, hcap', hev, InvO]
        | some q =>
          obtain ⟨l₁, e, l₂, hsplit, -, -, rfl⟩ := evictFirst_eq_some s.queue q hev
          have hsub : (l₁ ++ l₂).Sublist s.queue := by
            rw [hsplit]
            exact (List.sublist_cons_self e l₂).append_left l₁
          have hsubbid : ((l₁ ++ l₂).map CacheEntry.bid).Sublist
              (s.queue.map CacheEntry.bid) := hsub.map CacheEntry.bid
          have hq : l₁.length + l₂.length + 1 = s.queue.length := by
            rw [hsplit]
            simp only [List.length_append, List.length_cons]
            omega
          simp only [getBlockCache, hfind, hcap', hev, if_true,
            Option.map_some', InvO, Inv]
          refine ⟨?_, ?_⟩
          · simp only [List.length_append, List.length_cons, List.length_nil]
            omega
          · rw [List.map_append]
            refine List.Nodup.append (hnd.sublist hsubbid) (by simp) ?_
            intro a ha hb
            simp only [List.map_cons, List.map_nil, List.mem_singleton] at hb
            subst hb
            exact hfresh (hsubbid.mem ha)
      · have hcap' : (s.queue.length == BLOCK_CACHE_SIZE) = false := by
          simpa using hcap
        simp only [getBlockCache, hfind, hcap', if_false, Option.map_some',
          InvO, Inv]
        refine ⟨?_, ?_⟩
        · simp only [List.length_append, List.length_cons, List.length_nil]
          have : s.queue.length < BLOCK_CACHE_SIZE := lt_of_le_of_ne hle hcap
          omega
        · rw [List.map_append]
          refine List.Nodup.append hnd (by simp) ?_
          intro a ha hb
          simp only [List.map_cons, List.map_nil, List.mem_singleton] at hb
          subst hb
          exact hfresh ha

/-- Running any step sequence from an invariant state keeps the invariant. -/
theorem runSteps_inv (steps : List Step) :
    ∀ s : CMState, Inv s → InvO (runSteps s steps) := by
  induction steps with
  | nil => intro s h; exact h
  | cons st rest ih =>
    intro s h
    simp only [runSteps]
    cases hstep : s.applyStep st with
    | none => trivial
    | some s' =>
      have := applyStep_inv s st h
      rw [hstep] at this
      exact ih s' this

/-- C5: from the empty manager, every sequence of `get_block_cache` calls
(interleaved with arbitrary external handle clones and drops) keeps the
queue at no more than 16 entries with pairwise distinct block ids. -/
theorem getBlockCache_invariant (steps : List Step) :
    InvO (runSteps CMState.empty steps) :=
  runSteps_inv steps CMState.empty ⟨by simp [CMState.empty, BLOCK_CACHE_SIZE], by
    simp [CMState.empty]⟩

/-- With the directory's size consistent with its record sequence, a
32-byte read at the aligned offset of record `i` returns exactly that
record. -/
theorem readDirEntryAt_aligned (d : DiskInode) (i : Nat)
    (hsz : d.size = DIRENT_SZ * d.entries.length) (hi : i < d.entries.length) :
    readDirEntryAt d (i * DIRENT_SZ) = some (d.entries.get ⟨i, hi⟩) := by
  unfold readDirEntryAt
  have h1 : i * DIRENT_SZ % DIRENT_SZ = 0 := by simp only [DIRENT_SZ]; omega
  have h2 : i * DIRENT_SZ + DIRENT_SZ ≤ d.size := by
    rw [hsz]
    simp only [DIRENT_SZ]
    omega
  rw [if_pos ⟨h1, h2⟩]
  have h3 : i * DIRENT_SZ / DIRENT_SZ = i := by simp only [DIRENT_SZ]; omega
  rw [h3]
  exact List.getElem?_eq_getElem hi

/-- The `ls` scan, started at record `i` with `fuel` records to go, returns
the names of records `i, i+1, …` in order. -/
theorem lsLoop_eq (d : DiskInode) (hsz : d.size = DIRENT_SZ * d.entries.length) :
    ∀ fuel i, i + fuel ≤ d.entries.length →
      lsLoop d i fuel = some (((d.entries.drop i).take fuel).map DirEntry.name) := by
  intro fuel
  induction fuel with
  | zero => intro i h; simp [lsLoop]
  | succ fuel ih =>
    intro i h
    have hi : i < d.entries.length := by omega
    have hread := readDirEntryAt_aligned d i hsz hi
    simp only [lsLoop, hread]
    rw [ih (i + 1) (by omega)]
    have hdrop : d.entries.drop i = d.entries.get ⟨i, hi⟩ :: d.entries.drop (i + 1) :=
      List.drop_eq_getElem_cons hi
    rw [hdrop, List.take_succ_cons]
    simp

/-- C7: `ls()` on a directory of `s` bytes returns exactly `s / 32` names,
and the `i`-th returned name is the `name` field of the `DirEntry` record
stored at byte offset `32 * i` — physical append order, no sorting. -/
theorem ls_names_in_order (self : Inode) (d : DiskInode)
    (_hdir : d.isDir = true)
    (hsz : d.size = DIRENT_SZ * d.entries.length) :
    self.ls d = some (d.entries.map DirEntry.name) ∧
    (d.entries.map DirEntry.name).length = d.size / DIRENT_SZ ∧
    ∀ i, i < d.size / DIRENT_SZ →
      (d.entries.map DirEntry.name)[i]? =
        (readDirEntryAt d (DIRENT_SZ * i)).map DirEntry.name := by
  have hcount : d.size / DIRENT_SZ = d.entries.length := by
    rw [hsz]
    simp only [DIRENT_SZ]
    omega
  refine ⟨?_, by simp [hcount], ?_⟩
  · unfold Inode.ls
    rw [hcount, lsLoop_eq d hsz d.entries.length 0 (by omega)]
    simp
  · intro i hi
    rw [hcount] at hi
    rw [Nat.mul_comm DIRENT_SZ i, readDirEntryAt_aligned d i hsz hi,
      List.getElem?_map, List.getElem?_eq_getElem hi]
    rfl

/-- Witness for C7 on the concrete one-entry directory. -/
theorem ls_names_in_order_witness :
    noMatchDir.isDir = true ∧
    noMatchDir.size = DIRENT_SZ * noMatchDir.entries.length ∧
    someHandle.ls noMatchDir = some (noMatchDir.entries.map DirEntry.name) :=
  ⟨by decide, by decide,
   (ls_names_in_order someHandle noMatchDir (by decide) (by decide)).1⟩

/-- The scan loop can match, fail fatally on a short read, or fall off the
end, but it can never raise the directory-type assertion. -/
theorem findLoop_ne_panicNotDir (d : DiskInode) (name : String) :
    ∀ fuel i, findLoop d name i fuel ≠ FindOutcome.panicNotDir := by
  intro fuel
  induction fuel with
  | zero => intro i; simp [findLoop]
  | succ fuel ih =>
    intro i
    simp only [findLoop]
    cases readDirEntryAt d (DIRENT_SZ * i) with
    | none => simp
    | some ent =>
      by_cases hm : (ent.name == name) = true
      · simp [hm]
      · have hm' : (ent.name == name) = false := by simpa using hm
        simp [hm', ih (i + 1)]

/-- C9: `find(name)` on a handle whose located `DiskInode` is not a
directory hits the fatal directory-type assertion for every name; when the
`DiskInode` is a directory that assertion never fires. -/
theorem find_requires_directory (self : Inode) (name : String) (d : DiskInode) :
    (d.isDir = false → self.find name d = VfsFind.panicNotDir) ∧
    (d.isDir = true → self.find name d ≠ VfsFind.panicNotDir) := by
  constructor
  · intro h
    simp [Inode.find, find_inode_id, h]
  · intro h
    have hne := findLoop_ne_panicNotDir d name (d.size / DIRENT_SZ) 0
    simp only [Inode.find, find_inode_id, h, if_true]
    cases hfo : findLoop d name 0 (d.size / DIRENT_SZ) with
    | panicNotDir => exact absurd hfo hne
    | panicShortRead => simp
    | found inodeId => simp
    | fallsOff => simp

/-- Witness for C9: a concrete file inode makes `find` hit the assertion,
and a concrete directory does not. -/
theorem find_requires_directory_witness :
    (fileNode.isDir = false ∧
      someHandle.find "x" fileNode = VfsFind.panicNotDir) ∧
    (noMatchDir.isDir = true ∧
      someHandle.find "x" noMatchDir ≠ VfsFind.panicNotDir) :=
  ⟨⟨rfl, (find_requires_directory someHandle "x" fileNode).1 rfl⟩,
   ⟨rfl, (find_requires_directory someHandle "x" noMatchDir).2 rfl⟩⟩

/-- C2, counter-evidence: on the concrete directory holding one entry
named `a`, looking up `b` exhausts all entries and then falls off the end
of the source function — the path carries no value at all (as Rust it does
not compile), so the claimed explicit absent result `ok none` is never
produced. -/
theorem find_no_match_falls_off :
    find_inode_id "b" noMatchDir = FindOutcome.fallsOff ∧
    someHandle.find "b" noMatchDir = VfsFind.fallsOff ∧
    someHandle.find "b" noMatchDir ≠ VfsFind.ok none := by
  refine ⟨?_, ?_, ?_⟩ <;> decide

/-- C6, counter-evidence: the source's `create` is the empty stub
`pub fn create() {}`; on the concrete empty root directory it changes
nothing, so afterwards `ls()` does not contain `a.txt` (it occurs zero
times) and `find("a.txt")` yields no handle (it falls off the scan). -/
theorem create_stub_is_noop :
    Inode.create emptyRoot = emptyRoot ∧
    someHandle.ls (Inode.create emptyRoot) = some [] ∧
    ((someHandle.ls (Inode.create emptyRoot)).map fun l =>
      l.count "a.txt") = some 0 ∧
    someHandle.find "a.txt" (Inode.create emptyRoot) = VfsFind.fallsOff := by
  refine ⟨?_, ?_, ?_, ?_⟩ <;> decide

/-- C3: `BlockCache::sync` writes back the cached buffer iff the dirty flag is
set, clears the flag, and a second `sync` with no intervening mutation issues
zero device writes. -/
theorem sync_writes_iff_dirty_and_idempotent (c : BlockCache) :
    (c.sync.2 = if c.modified then [(c.blockId, c.cache)] else []) ∧
    c.sync.1.modified = false ∧
    c.sync.1.sync.2 = [] := by
  unfold BlockCache.sync
  cases h : c.modified <;> simp [h]

/-- C8: `get_ref`/`get_mut` succeed exactly when `offset + size_of(T) ≤ 512`,
the successful view is the in-bounds slice of the 512-byte buffer (of length
exactly `size_of(T)`), and a failing `get_mut` leaves the cache state — in
particular the dirty flag — unchanged, the flag being set only on success. -/
theorem getRef_getMut_bounds (tsize offset : Nat) (c : BlockCache)
    (hlen : c.cache.length = BLOCK_SZ) :
    ((c.getRef tsize offset).isSome ↔ offset + tsize ≤ BLOCK_SZ) ∧
    (∀ v, c.getRef tsize offset = some v →
      v.length = tsize ∧ v = (c.cache.drop offset).take tsize) ∧
    ((c.getMut tsize offset).1.isSome ↔ offset + tsize ≤ BLOCK_SZ) ∧
    ((c.getMut tsize offset).2 =
      if offset + tsize ≤ BLOCK_SZ then { c with modified := true } else c) := by
  unfold BlockCache.getRef BlockCache.getMut
  by_cases h : offset + tsize ≤ BLOCK_SZ
  · refine ⟨by simp [h], ?_, by simp [h], by simp [h]⟩
    intro v hv
    simp only [h, if_true, Option.some.injEq] at hv
    subst hv
    refine ⟨?_, rfl⟩
    have hdrop : (c.cache.drop offset).length = BLOCK_SZ - offset := by
      simp [List.length_drop, hlen]
    simp [List.length_take, hdrop]
    omega
  · refine ⟨by simp [h], ?_, by simp [h], by simp [h]⟩
    intro v hv
    simp [h] at hv

/-- Witness for C8 at a concrete in-bounds call on a 512-byte buffer. -/
theorem getRef_getMut_bounds_witness :
    (({ cache := List.replicate 512 0, blockId := 3, modified := false } :
        BlockCache).cache.length = BLOCK_SZ) ∧
    ((({ cache := List.replicate 512 0, blockId := 3, modified := false } :
        BlockCache).getRef 4 508).isSome ↔ 508 + 4 ≤ BLOCK_SZ) :=
  ⟨by simp [BLOCK_SZ],
   (getRef_getMut_bounds 4 508
      { cache := List.replicate 512 0, blockId := 3, modified := false }
      (by simp [BLOCK_SZ])).1⟩

end EasyFs
